import Mathlib

/- Verification of the multi-signal hybrid retrieval engine of this repository
   (`src/4-hybrid-search/index.ts`).  The AQL pipeline of `search` is embedded
   shallowly: documents and edges are records of strings, scores are exact
   rationals (the TypeScript/AQL floats `1.0/(k+rank)` and `0.005` are modelled
   by the corresponding rationals), the AQL `SORT` is modelled as a
   deterministic insertion sort, and the AQL `COLLECT` produces its groups
   sorted by the group key, as documented for the sorted collect method.
   ArangoDB does not contract any particular order among rows whose sort keys
   are equal, so the generally quantified theorems below draw no conclusion
   that depends on the tie order of the model's sort: they rely only on the
   weak sortedness of the output, on it being a permutation of the input, and
   on strict key separation between the blocks being ordered; the concrete
   evaluations spell out the model's literal output, whose claim-relevant
   content (which rows appear, with which scores and tags) is tie-order
   independent.  String comparison is the codepoint-wise comparison of the
   underlying character lists. -/

namespace HybridRag

/-- A document of the `docs` collection, with the fields the search pipeline
projects out: `_id`, `_key`, `name`, `text`, `role`.  The embedding vector is
kept separately where it is needed. -/
structure Doc where
  id : String
  key : String
  name : String
  text : String
  role : String
deriving DecidableEq

/-- An edge of the `related_to` collection: `_from`, `_to` (document `_id`s),
`type` and `project`. -/
structure Edge where
  efrom : String
  eto : String
  typ : String
  project : String
deriving DecidableEq

/-- A document together with a score: the shape of the objects built by the
`bm25_with_rrf` / `vector_with_rrf` subqueries (field `rrf_score`) and of the
fused `initial_results` (field `score`). -/
structure Scored where
  doc : Doc
  score : ℚ
deriving DecidableEq

/-- One row of the final output: a document, its score, its provenance tag
(`source`), and — present only on graph-expansion rows — `relationship`,
`connected_to` and `project`.  Absent AQL attributes are modelled as `none`. -/
structure ResultItem where
  doc : Doc
  score : ℚ
  source : String
  relationship : Option String
  connected_to : Option String
  project : Option String
deriving DecidableEq

/-- The RRF damping constant `k = 60` of `search`. -/
def rrfK : ℚ := 60

/-- The per-strategy result limit `limit = 3` of `search`. -/
def searchLimit : Nat := 3

/-- The fixed score `0.005` given to every graph-expansion row. -/
def expansionScore : ℚ := 5 / 1000

/-- `config.ollama.embeddingDimensions = 768`. -/
def embeddingDimensions : Nat := 768

/-- Codepoint-wise string comparison, the order AQL uses on string values. -/
def strLtP (a b : String) : Prop := a.data < b.data

instance (a b : String) : Decidable (strLtP a b) :=
  inferInstanceAs (Decidable (a.data < b.data))

/-- Boolean form of `strLtP`. -/
def strLt (a b : String) : Bool := decide (strLtP a b)

/-- The `bm25_with_rrf` / `vector_with_rrf` subqueries: the document at
0-based position `i` (here reached with accumulator `r = i`) gets
`rrf_score = 1/(k + rank)` with `rank = i + 1`. -/
def withRrfAux (r : Nat) : List Doc → List Scored
  | [] => []
  | d :: ds => { doc := d, score := 1 / (rrfK + (r : ℚ) + 1) } :: withRrfAux (r + 1) ds

/-- RRF-scored rank list of a strategy's documents (ranks start at 1). -/
def withRrf (docs : List Doc) : List Scored :=
  withRrfAux 0 docs

/-- The `AGGREGATE final_score = SUM(doc.rrf_score)` of the fusion `COLLECT`:
sum of the scores of all entries whose `_id` equals `i`. -/
def sumScores (entries : List Scored) (i : String) : ℚ :=
  ((entries.filter (fun e => e.doc.id == i)).map (fun e => e.score)).sum

/-- The document fields carried along as group keys by the fusion `COLLECT`:
the fields of the first entry with the given `_id` (entries with equal `_id`
stem from the same stored document, so all of them agree). -/
def lookupDoc (entries : List Scored) (i : String) : Doc :=
  match entries.find? (fun e => e.doc.id == i) with
  | some e => e.doc
  | none => ⟨"", "", "", "", ""⟩

/-- Insertion into a strictly ascending list of group keys (no duplicates). -/
def insertSortedIds (i : String) : List String → List String
  | [] => [i]
  | j :: js => if i = j then j :: js else if strLt i j then i :: j :: js else j :: insertSortedIds i js

/-- The group keys of the fusion `COLLECT`, in ascending `_id` order: the AQL
sorted-collect returns its groups sorted by the group values, whose first and
determining component is `_id`. -/
def collectKeys (entries : List Scored) : List String :=
  entries.foldl (fun acc e => insertSortedIds e.doc.id acc) []

/-- The fusion `COLLECT ... AGGREGATE final_score = SUM(doc.rrf_score)`:
one group per `_id`, scores summed, groups in ascending `_id` order. -/
def collectFused (entries : List Scored) : List Scored :=
  (collectKeys entries).map (fun i => { doc := lookupDoc entries i, score := sumScores entries i })

/-- Comparator of `SORT final_score DESC`: `a` goes strictly before `b`. -/
def scoreGtB (a b : Scored) : Bool := decide (b.score < a.score)

/-- Stable insertion of `x` into `l`: `x` is placed before the first element
it strictly precedes. -/
def insPlace {α : Type} (lt : α → α → Bool) (x : α) : List α → List α
  | [] => [x]
  | y :: ys => if lt x y then x :: y :: ys else y :: insPlace lt x ys

/-- Stable sort by comparator `lt` (insertion sort; ties keep input order). -/
def stableSortBy {α : Type} (lt : α → α → Bool) (l : List α) : List α :=
  l.foldl (fun acc x => insPlace lt x acc) []

/-- Steps 3–4 of `search`: `UNION(bm25_with_rrf, vector_with_rrf)`, the fusion
`COLLECT` with summed RRF scores, `SORT final_score DESC`, `LIMIT 3`. -/
def fusedResults (B V : List Doc) : List Scored :=
  (stableSortBy scoreGtB (collectFused (withRrf B ++ withRrf V))).take searchLimit

/-- First-occurrence deduplication (the effect of `DISTINCT` on a stream of
values). -/
def dedupFirst {α : Type} [DecidableEq α] (l : List α) : List α :=
  l.foldl (fun acc x => if x ∈ acc then acc else acc ++ [x]) []

/-- The `1..1 ANY` traversal from vertex `rid`: every `(vertex, edge)` pair
with the edge incident to `rid` and the vertex the edge's other endpoint,
looked up in the document store. -/
def neighborsOf (store : List Doc) (edges : List Edge) (rid : String) : List (Doc × Edge) :=
  edges.filterMap (fun e =>
    if e.efrom == rid then (store.find? (fun d => d.id == e.eto)).map (fun d => (d, e))
    else if e.eto == rid then (store.find? (fun d => d.id == e.efrom)).map (fun d => (d, e))
    else none)

/-- Step 5 of `search` (`related_people`): for every fused direct hit, every
one-hop neighbor becomes a row with constant score `0.005`, provenance tag
`graph_expansion`, the traversed edge's `type` and `project`, and the direct
hit's `_key` as `connected_to`; `RETURN DISTINCT` removes duplicate rows. -/
def expansionItems (store : List Doc) (edges : List Edge) (fused : List Scored) : List ResultItem :=
  dedupFirst (fused.flatMap (fun r =>
    (neighborsOf store edges r.doc.id).map (fun p =>
      { doc := p.1, score := expansionScore, source := "graph_expansion",
        relationship := some p.2.typ, connected_to := some r.doc.key,
        project := some p.2.project })))

/-- The fused direct hits as final-output rows (`source: "hybrid_search"`,
no expansion attributes). -/
def directItems (fused : List Scored) : List ResultItem :=
  fused.map (fun f =>
    { doc := f.doc, score := f.score, source := "hybrid_search",
      relationship := none, connected_to := none, project := none })

/-- Comparator of the final `SORT person.score DESC, person.source ASC`. -/
def finalLt (a b : ResultItem) : Bool :=
  decide (b.score < a.score) || (decide (a.score = b.score) && strLt a.source b.source)

/-- Sorting the final output by score alone, ignoring the provenance tag. -/
def scoreOnlyLt (a b : ResultItem) : Bool := decide (b.score < a.score)

/-- Step 6 of `search`: `UNION_DISTINCT(initial_results, related_people)`
followed by `SORT person.score DESC, person.source ASC`. -/
def searchResults (store : List Doc) (edges : List Edge) (B V : List Doc) : List ResultItem :=
  stableSortBy finalLt
    (dedupFirst (directItems (fusedResults B V) ++ expansionItems store edges (fusedResults B V)))

/-- Errors a query can fail with. -/
inductive SearchError where
  | dimensionMismatch
  | embeddingUnavailable
deriving DecidableEq

/-- Modelled from the spec: the vector backend contract (spec sections 4.2 and 6).
The repository delegates the distance computation to the database's
`COSINE_SIMILARITY`, whose implementation is not part of the repository; the
spec fixes its interface as `SearchVector(vec, limit)`, failing with
`DimensionMismatch` if `len(vec) ≠ D` before any distance is computed, and
otherwise ranking by descending similarity (`SORT similarity DESC LIMIT 3`).
The similarity metric itself is abstracted as the parameter `sim`. -/
def vectorSearch (sim : List ℚ → List ℚ → ℚ) (qv : List ℚ) (vstore : List (Doc × List ℚ))
    (limit : Nat) : Except SearchError (List Doc) :=
  if qv.length = embeddingDimensions then
    Except.ok (((stableSortBy (fun a b => decide (sim b.2 qv < sim a.2 qv)) vstore).take limit).map
      (fun p => p.1))
  else
    Except.error SearchError.dimensionMismatch

/-- Outcome of one query of `search`: a result list, or a failure.
`getEmbedding` reports provider errors and calls `process.exit(1)`, which
aborts the query before any retrieval runs; that abort is modelled as the
`failed` outcome, which is distinct from `results []` (an empty result list
is a successful run that exits with status 0). -/
inductive QueryOutcome where
  | results : List ResultItem → QueryOutcome
  | failed : SearchError → QueryOutcome
deriving DecidableEq

/-- The `search` pipeline: stage 1 embeds the query (`provider` is the
embedding provider's response, `none` when it is unreachable or the model is
absent); then the lexical rank list (`lexHits`, produced by the BM25 backend,
truncated by its `LIMIT 3`) and the vector rank list are fused and expanded. -/
def runQuery (provider : Option (List ℚ)) (sim : List ℚ → List ℚ → ℚ)
    (lexHits : List Doc) (vstore : List (Doc × List ℚ)) (store : List Doc)
    (edges : List Edge) : QueryOutcome :=
  match provider with
  | none => QueryOutcome.failed SearchError.embeddingUnavailable
  | some qv =>
    match vectorSearch sim qv vstore searchLimit with
    | Except.error e => QueryOutcome.failed e
    | Except.ok vecHits => QueryOutcome.results (searchResults store edges (lexHits.take searchLimit) vecHits)

/-- What `main` does with its (optional) first CLI argument. -/
inductive MainAction where
  | resetDb
  | usage
  | runSearch : String → MainAction
deriving DecidableEq

/-- The dispatch of `main`: `reset` / `--reset` drop the database; a missing
or empty argument (both falsy in `if (!query)`) prints usage and returns;
anything else is searched. -/
def mainDispatch : Option String → MainAction
  | none => MainAction.usage
  | some c =>
    if c = "reset" ∨ c = "--reset" then MainAction.resetDb
    else if c = "" then MainAction.usage
    else MainAction.runSearch c

/-- The spec's RRF formula, for comparison with the code: entity `i` ranked
at 1-based position `rank` in a list contributes `1/(k + rank)`; an entity
absent from the list contributes `0`. -/
def rrfContributionAux (rank : Nat) : List Doc → String → ℚ
  | [], _ => 0
  | d :: ds, i => if d.id = i then 1 / (rrfK + (rank : ℚ)) else rrfContributionAux (rank + 1) ds i

/-- The spec's per-list RRF contribution of entity `i` in rank list `L`. -/
def rrfContribution (L : List Doc) (i : String) : ℚ :=
  rrfContributionAux 1 L i

/- Properties of the stable insertion sort and of first-occurrence
deduplication. -/

theorem mem_insPlace {α : Type} (lt : α → α → Bool) (x : α) (l : List α) (y : α) :
    y ∈ insPlace lt x l ↔ y = x ∨ y ∈ l := by
  induction l with
  | nil => simp [insPlace]
  | cons z zs ih =>
    by_cases h : lt x z
    · simp only [insPlace, if_pos h, List.mem_cons]
    · simp only [insPlace, if_neg h, List.mem_cons, ih]
      tauto

theorem insPlace_perm {α : Type} (lt : α → α → Bool) (x : α) (l : List α) :
    List.Perm (insPlace lt x l) (x :: l) := by
  induction l with
  | nil => simp [insPlace]
  | cons z zs ih =>
    by_cases h : lt x z
    · simp [insPlace, h]
    · simp only [insPlace, h, if_false, Bool.false_eq_true]
      exact (ih.cons z).trans (List.Perm.swap x z zs)

theorem foldl_insPlace_perm {α : Type} (lt : α → α → Bool) :
    ∀ (l acc : List α), List.Perm (l.foldl (fun a x => insPlace lt x a) acc) (acc ++ l)
  | [], acc => by simp
  | x :: xs, acc => by
    simp only [List.foldl_cons]
    exact (foldl_insPlace_perm lt xs (insPlace lt x acc)).trans
      (((insPlace_perm lt x acc).append_right xs).trans List.perm_middle.symm)

theorem stableSortBy_perm {α : Type} (lt : α → α → Bool) (l : List α) :
    List.Perm (stableSortBy lt l) l := by
  simpa [stableSortBy] using foldl_insPlace_perm lt l []

theorem mem_stableSortBy {α : Type} (lt : α → α → Bool) (l : List α) (y : α) :
    y ∈ stableSortBy lt l ↔ y ∈ l :=
  (stableSortBy_perm lt l).mem_iff

theorem insPlace_pairwise_sorted {α : Type} (lt : α → α → Bool)
    (htrans : ∀ a b c : α, lt a b = true → lt b c = true → lt a c = true)
    (hasymm : ∀ a b : α, lt a b = true → lt b a = false)
    (x : α) (l : List α) (h : l.Pairwise fun a b => lt b a = false) :
    (insPlace lt x l).Pairwise fun a b => lt b a = false := by
  induction l with
  | nil => simp [insPlace]
  | cons y ys ih =>
    rw [List.pairwise_cons] at h
    obtain ⟨hy, hys⟩ := h
    by_cases hlt : lt x y = true
    · simp only [insPlace, hlt, if_true]
      rw [List.pairwise_cons]
      refine ⟨?_, List.pairwise_cons.mpr ⟨hy, hys⟩⟩
      intro z hz
      rcases List.mem_cons.mp hz with hzy | hzys
      · rw [hzy]
        exact hasymm x y hlt
      · rcases Bool.eq_false_or_eq_true (lt z x) with hzx | hzx
        · have hzy : lt z y = true := htrans z x y hzx hlt
          rw [hy z hzys] at hzy
          exact (Bool.false_ne_true hzy).elim
        · exact hzx
    · have hlt' : lt x y = false := by revert hlt; cases lt x y <;> simp
      simp only [insPlace, hlt', if_false, Bool.false_eq_true]
      rw [List.pairwise_cons]
      refine ⟨?_, ih hys⟩
      intro z hz
      rcases (mem_insPlace lt x ys z).mp hz with rfl | hzys
      · exact hlt'
      · exact hy z hzys

theorem foldl_insPlace_pairwise {α : Type} (lt : α → α → Bool)
    (htrans : ∀ a b c : α, lt a b = true → lt b c = true → lt a c = true)
    (hasymm : ∀ a b : α, lt a b = true → lt b a = false) :
    ∀ (l acc : List α), acc.Pairwise (fun a b => lt b a = false) →
      (l.foldl (fun a x => insPlace lt x a) acc).Pairwise fun a b => lt b a = false
  | [], _, h => h
  | x :: xs, acc, h => by
    simp only [List.foldl_cons]
    exact foldl_insPlace_pairwise lt htrans hasymm xs _
      (insPlace_pairwise_sorted lt htrans hasymm x acc h)

theorem stableSortBy_pairwise_sorted {α : Type} (lt : α → α → Bool)
    (htrans : ∀ a b c : α, lt a b = true → lt b c = true → lt a c = true)
    (hasymm : ∀ a b : α, lt a b = true → lt b a = false) (l : List α) :
    (stableSortBy lt l).Pairwise fun a b => lt b a = false :=
  foldl_insPlace_pairwise lt htrans hasymm l [] (by simp)

theorem insPlace_of_forall_false {α : Type} (lt : α → α → Bool) (x : α) (l : List α)
    (h : ∀ a ∈ l, lt x a = false) : insPlace lt x l = l ++ [x] := by
  induction l with
  | nil => simp [insPlace]
  | cons y ys ih =>
    have hy : lt x y = false := h y (List.mem_cons_self y ys)
    simp only [insPlace, hy, if_false, Bool.false_eq_true, List.cons_append]
    rw [ih (fun a ha => h a (List.mem_cons_of_mem y ha))]

theorem foldl_insPlace_of_pairwise {α : Type} (lt : α → α → Bool) :
    ∀ (l acc : List α), (∀ x ∈ l, ∀ a ∈ acc, lt x a = false) →
      l.Pairwise (fun a b => lt b a = false) →
      l.foldl (fun a x => insPlace lt x a) acc = acc ++ l
  | [], acc, _, _ => by simp
  | x :: xs, acc, h, hp => by
    rw [List.pairwise_cons] at hp
    obtain ⟨hx, hxs⟩ := hp
    simp only [List.foldl_cons]
    rw [insPlace_of_forall_false lt x acc (h x (List.mem_cons_self x xs))]
    rw [foldl_insPlace_of_pairwise lt xs (acc ++ [x]) ?_ hxs]
    · simp
    · intro z hz a ha
      rcases List.mem_append.mp ha with hacc | hax
      · exact h z (List.mem_cons_of_mem x hz) a hacc
      · rcases List.mem_singleton.mp hax with rfl
        exact hx z hz

theorem stableSortBy_of_pairwise {α : Type} (lt : α → α → Bool) (l : List α)
    (h : l.Pairwise fun a b => lt b a = false) : stableSortBy lt l = l := by
  simpa [stableSortBy] using foldl_insPlace_of_pairwise lt l [] (by simp) h

theorem insPlace_congr {α : Type} (lt lt' : α → α → Bool) (x : α) (l : List α)
    (h : ∀ b ∈ l, lt x b = lt' x b) : insPlace lt x l = insPlace lt' x l := by
  induction l with
  | nil => simp [insPlace]
  | cons y ys ih =>
    have hy := h y (List.mem_cons_self y ys)
    by_cases hxy : lt' x y = true
    · simp [insPlace, hxy, hy ▸ hxy]
    · have h1 : lt' x y = false := by revert hxy; cases lt' x y <;> simp
      have h2 : lt x y = false := hy.trans h1
      simp only [insPlace, h1, h2, if_false, Bool.false_eq_true]
      rw [ih (fun b hb => h b (List.mem_cons_of_mem y hb))]

theorem foldl_insPlace_congr {α : Type} (lt lt' : α → α → Bool) :
    ∀ (l acc : List α), (∀ a b : α, (a ∈ l ∨ a ∈ acc) → (b ∈ l ∨ b ∈ acc) → lt a b = lt' a b) →
      l.foldl (fun a x => insPlace lt x a) acc = l.foldl (fun a x => insPlace lt' x a) acc
  | [], _, _ => rfl
  | x :: xs, acc, h => by
    simp only [List.foldl_cons]
    rw [insPlace_congr lt lt' x acc
      (fun b hb => h x b (Or.inl (List.mem_cons_self x xs)) (Or.inr hb))]
    exact foldl_insPlace_congr lt lt' xs (insPlace lt' x acc) (by
      intro a b ha hb
      refine h a b ?_ ?_
      · rcases ha with ha | ha
        · exact Or.inl (List.mem_cons_of_mem x ha)
        · rcases (mem_insPlace lt' x acc a).mp ha with rfl | ha
          · exact Or.inl (List.mem_cons_self a xs)
          · exact Or.inr ha
      · rcases hb with hb | hb
        · exact Or.inl (List.mem_cons_of_mem x hb)
        · rcases (mem_insPlace lt' x acc b).mp hb with rfl | hb
          · exact Or.inl (List.mem_cons_self b xs)
          · exact Or.inr hb)

theorem stableSortBy_congr {α : Type} (lt lt' : α → α → Bool) (l : List α)
    (h : ∀ a ∈ l, ∀ b ∈ l, lt a b = lt' a b) : stableSortBy lt l = stableSortBy lt' l :=
  foldl_insPlace_congr lt lt' l [] (by
    intro a b ha hb
    rcases ha with ha | ha
    · rcases hb with hb | hb
      · exact h a ha b hb
      · simp at hb
    · simp at ha)

theorem map_insPlace {α β : Type} (lt : α → α → Bool) (g : α → β) (lt' : β → β → Bool)
    (hf : ∀ a b : α, lt a b = lt' (g a) (g b)) (x : α) (l : List α) :
    (insPlace lt x l).map g = insPlace lt' (g x) (l.map g) := by
  induction l with
  | nil => simp [insPlace]
  | cons y ys ih =>
    by_cases hxy : lt x y = true
    · simp [insPlace, hxy, hf x y ▸ hxy]
    · have h1 : lt x y = false := by revert hxy; cases lt x y <;> simp
      have h2 : lt' (g x) (g y) = false := (hf x y).symm.trans h1
      simp only [insPlace, h1, h2, if_false, Bool.false_eq_true, List.map_cons]
      rw [ih]

theorem foldl_insPlace_map {α β : Type} (lt : α → α → Bool) (g : α → β) (lt' : β → β → Bool)
    (hf : ∀ a b : α, lt a b = lt' (g a) (g b)) :
    ∀ (l acc : List α), (l.foldl (fun a x => insPlace lt x a) acc).map g =
      (l.map g).foldl (fun a x => insPlace lt' x a) (acc.map g)
  | [], _ => by simp
  | x :: xs, acc => by
    simp only [List.foldl_cons, List.map_cons]
    rw [foldl_insPlace_map lt g lt' hf xs (insPlace lt x acc),
      map_insPlace lt g lt' hf x acc]

theorem map_stableSortBy {α β : Type} (lt : α → α → Bool) (g : α → β) (lt' : β → β → Bool)
    (hf : ∀ a b : α, lt a b = lt' (g a) (g b)) (l : List α) :
    (stableSortBy lt l).map g = stableSortBy lt' (l.map g) := by
  simpa [stableSortBy] using foldl_insPlace_map lt g lt' hf l []

theorem mem_foldl_dedup {α : Type} [DecidableEq α] :
    ∀ (l acc : List α) (a : α),
      a ∈ l.foldl (fun acc x => if x ∈ acc then acc else acc ++ [x]) acc ↔ a ∈ acc ∨ a ∈ l
  | [], acc, a => by simp
  | x :: xs, acc, a => by
    simp only [List.foldl_cons]
    by_cases hx : x ∈ acc
    · rw [if_pos hx, mem_foldl_dedup xs acc a]
      constructor
      · tauto
      · rintro (h | h)
        · exact Or.inl h
        · rcases List.mem_cons.mp h with rfl | h
          · exact Or.inl hx
          · exact Or.inr h
    · rw [if_neg hx, mem_foldl_dedup xs (acc ++ [x]) a]
      simp
      tauto

theorem mem_dedupFirst {α : Type} [DecidableEq α] (l : List α) (a : α) :
    a ∈ dedupFirst l ↔ a ∈ l := by
  rw [dedupFirst, mem_foldl_dedup]
  simp

theorem nodup_foldl_dedup {α : Type} [DecidableEq α] :
    ∀ (l acc : List α), acc.Nodup →
      (l.foldl (fun acc x => if x ∈ acc then acc else acc ++ [x]) acc).Nodup
  | [], _, h => h
  | x :: xs, acc, h => by
    simp only [List.foldl_cons]
    by_cases hx : x ∈ acc
    · rw [if_pos hx]
      exact nodup_foldl_dedup xs acc h
    · rw [if_neg hx]
      refine nodup_foldl_dedup xs (acc ++ [x]) ?_
      simp [List.nodup_append, h, hx]

theorem dedupFirst_nodup {α : Type} [DecidableEq α] (l : List α) : (dedupFirst l).Nodup :=
  nodup_foldl_dedup l [] List.nodup_nil

theorem foldl_dedup_of_nodup {α : Type} [DecidableEq α] :
    ∀ (l acc : List α), l.Nodup → (∀ x ∈ l, x ∉ acc) →
      l.foldl (fun acc x => if x ∈ acc then acc else acc ++ [x]) acc = acc ++ l
  | [], acc, _, _ => by simp
  | x :: xs, acc, h, hd => by
    rw [List.nodup_cons] at h
    simp only [List.foldl_cons]
    rw [if_neg (hd x (List.mem_cons_self x xs))]
    rw [foldl_dedup_of_nodup xs (acc ++ [x]) h.2 ?_]
    · simp
    · intro z hz
      simp only [List.mem_append, List.mem_singleton]
      rintro (hza | rfl)
      · exact hd z (List.mem_cons_of_mem x hz) hza
      · exact h.1 hz

theorem dedupFirst_of_nodup {α : Type} [DecidableEq α] (l : List α) (h : l.Nodup) :
    dedupFirst l = l := by
  simpa [dedupFirst] using foldl_dedup_of_nodup l [] h (by simp)

/- Properties of the string order used for group keys and provenance tags. -/

theorem str_eq_of_data_eq (a b : String) (h : a.data = b.data) : a = b :=
  congrArg String.mk h

theorem strLt_iff (a b : String) : strLt a b = true ↔ strLtP a b := by
  simp [strLt]

theorem strLt_eq_false_iff (a b : String) : strLt a b = false ↔ ¬ strLtP a b := by
  simp [strLt]

theorem strLtP_trans {a b c : String} (h1 : strLtP a b) (h2 : strLtP b c) : strLtP a c :=
  lt_trans h1 h2

theorem strLtP_asymm {a b : String} (h : strLtP a b) : ¬ strLtP b a :=
  lt_asymm h

theorem strLtP_irrefl (a : String) : ¬ strLtP a a :=
  lt_irrefl a.data

theorem strLtP_ne {a b : String} (h : strLtP a b) : a ≠ b :=
  fun hEq => strLtP_irrefl a (hEq ▸ h)

theorem strLtP_total {a b : String} (h : a ≠ b) : strLtP a b ∨ strLtP b a := by
  rcases lt_trichotomy a.data b.data with h1 | h1 | h1
  · exact Or.inl h1
  · exact absurd (str_eq_of_data_eq a b h1) h
  · exact Or.inr h1

/- Properties of the sorted group keys of the fusion COLLECT. -/

theorem mem_insertSortedIds (i : String) (l : List String) (j : String) :
    j ∈ insertSortedIds i l ↔ j = i ∨ j ∈ l := by
  induction l with
  | nil => simp [insertSortedIds]
  | cons y ys ih =>
    by_cases h1 : i = y
    · subst h1
      have hstep : insertSortedIds i (i :: ys) = i :: ys := by
        simp [insertSortedIds]
      rw [hstep, List.mem_cons]
      tauto
    · by_cases h2 : strLt i y
      · simp only [insertSortedIds, if_neg h1, if_pos h2, List.mem_cons]
      · simp only [insertSortedIds, if_neg h1, if_neg h2, List.mem_cons, ih]
        tauto

theorem insertSortedIds_pairwise (i : String) (l : List String) (h : l.Pairwise strLtP) :
    (insertSortedIds i l).Pairwise strLtP := by
  induction l with
  | nil => simp [insertSortedIds]
  | cons y ys ih =>
    rw [List.pairwise_cons] at h
    obtain ⟨hy, hys⟩ := h
    by_cases h1 : i = y
    · simp only [insertSortedIds, if_pos h1]
      exact List.pairwise_cons.mpr ⟨hy, hys⟩
    · by_cases h2 : strLt i y
      · simp only [insertSortedIds, if_neg h1, if_pos h2]
        rw [List.pairwise_cons]
        refine ⟨?_, List.pairwise_cons.mpr ⟨hy, hys⟩⟩
        intro b hb
        rcases List.mem_cons.mp hb with hby | hbys
        · rw [hby]
          exact (strLt_iff i y).mp h2
        · exact strLtP_trans ((strLt_iff i y).mp h2) (hy b hbys)
      · simp only [insertSortedIds, if_neg h1, if_neg h2]
        rw [List.pairwise_cons]
        refine ⟨?_, ih hys⟩
        intro b hb
        rcases (mem_insertSortedIds i ys b).mp hb with hbi | hbys
        · rw [hbi]
          rcases strLtP_total h1 with hiy | hyi
          · exact absurd ((strLt_iff i y).mpr hiy) h2
          · exact hyi
        · exact hy b hbys

theorem mem_foldl_insertSorted :
    ∀ (E : List Scored) (acc : List String) (j : String),
      (j ∈ E.foldl (fun acc e => insertSortedIds e.doc.id acc) acc) ↔
        j ∈ acc ∨ ∃ e ∈ E, e.doc.id = j
  | [], acc, j => by simp
  | e :: es, acc, j => by
    simp only [List.foldl_cons, mem_foldl_insertSorted es, mem_insertSortedIds,
      List.mem_cons]
    constructor
    · rintro ((rfl | h) | ⟨e2, h2, rfl⟩)
      · exact Or.inr ⟨e, Or.inl rfl, rfl⟩
      · exact Or.inl h
      · exact Or.inr ⟨e2, Or.inr h2, rfl⟩
    · rintro (h | ⟨e2, (rfl | h2), rfl⟩)
      · exact Or.inl (Or.inr h)
      · exact Or.inl (Or.inl rfl)
      · exact Or.inr ⟨e2, h2, rfl⟩

theorem mem_collectKeys (E : List Scored) (j : String) :
    j ∈ collectKeys E ↔ ∃ e ∈ E, e.doc.id = j := by
  rw [collectKeys, mem_foldl_insertSorted]
  simp

theorem foldl_insertSorted_pairwise :
    ∀ (E : List Scored) (acc : List String), acc.Pairwise strLtP →
      (E.foldl (fun acc e => insertSortedIds e.doc.id acc) acc).Pairwise strLtP
  | [], _, h => h
  | e :: es, acc, h => by
    simp only [List.foldl_cons]
    exact foldl_insertSorted_pairwise es _ (insertSortedIds_pairwise e.doc.id acc h)

theorem collectKeys_pairwise (E : List Scored) : (collectKeys E).Pairwise strLtP :=
  foldl_insertSorted_pairwise E [] (by simp)

theorem collectKeys_nodup (E : List Scored) : (collectKeys E).Nodup :=
  (collectKeys_pairwise E).imp (fun h => strLtP_ne h)

theorem sorted_strLtP_eq :
    ∀ (xs ys : List String), xs.Pairwise strLtP → ys.Pairwise strLtP →
      (∀ a, a ∈ xs ↔ a ∈ ys) → xs = ys
  | [], [], _, _, _ => rfl
  | [], y :: ys, _, _, h => absurd ((h y).mpr (List.mem_cons_self y ys)) (List.not_mem_nil y)
  | x :: xs, [], _, _, h => absurd ((h x).mp (List.mem_cons_self x xs)) (List.not_mem_nil x)
  | x :: xs, y :: ys, hx, hy, h => by
    rw [List.pairwise_cons] at hx hy
    have hxy : x = y := by
      rcases List.mem_cons.mp ((h x).mp (List.mem_cons_self x xs)) with hxy | hxys
      · exact hxy
      · rcases List.mem_cons.mp ((h y).mpr (List.mem_cons_self y ys)) with hyx | hyxs
        · exact hyx.symm
        · exact absurd (hx.1 y hyxs) (strLtP_asymm (hy.1 x hxys))
    subst hxy
    have htail : ∀ a, a ∈ xs ↔ a ∈ ys := by
      intro a
      constructor
      · intro ha
        rcases List.mem_cons.mp ((h a).mp (List.mem_cons_of_mem x ha)) with hax | hays
        · exact absurd (hx.1 a ha) (hax ▸ strLtP_irrefl x)
        · exact hays
      · intro ha
        rcases List.mem_cons.mp ((h a).mpr (List.mem_cons_of_mem x ha)) with hax | haxs
        · exact absurd (hy.1 a ha) (hax ▸ strLtP_irrefl x)
        · exact haxs
    rw [sorted_strLtP_eq xs ys hx.2 hy.2 htail]

/- Properties of the summed RRF scores and the RRF-scored rank lists. -/

theorem sumScores_append (E1 E2 : List Scored) (i : String) :
    sumScores (E1 ++ E2) i = sumScores E1 i + sumScores E2 i := by
  simp [sumScores, List.filter_append]

theorem sumScores_eq_zero (E : List Scored) (i : String) (h : ∀ e ∈ E, e.doc.id ≠ i) :
    sumScores E i = 0 := by
  have hf : E.filter (fun e => e.doc.id == i) = [] := by
    rw [List.filter_eq_nil_iff]
    intro e he
    simp [h e he]
  simp [sumScores, hf]

theorem withRrfAux_map_doc : ∀ (r : Nat) (L : List Doc), (withRrfAux r L).map Scored.doc = L
  | _, [] => rfl
  | r, d :: ds => by
    simp only [withRrfAux, List.map_cons, withRrfAux_map_doc (r + 1) ds]

theorem mem_withRrfAux_score :
    ∀ (r : Nat) (L : List Doc) (e : Scored), e ∈ withRrfAux r L →
      ∃ j : Nat, j < L.length ∧ e.score = 1 / (rrfK + (r : ℚ) + (j : ℚ) + 1)
  | r, [], e => by simp [withRrfAux]
  | r, d :: ds, e => by
    intro he
    rcases List.mem_cons.mp he with rfl | he2
    · exact ⟨0, by simp, by push_cast; ring_nf⟩
    · obtain ⟨j, hj, hs⟩ := mem_withRrfAux_score (r + 1) ds e he2
      refine ⟨j + 1, by simpa using Nat.succ_lt_succ hj, ?_⟩
      rw [hs]
      push_cast
      ring_nf

theorem withRrfAux_pairwise_score :
    ∀ (r : Nat) (L : List Doc), (withRrfAux r L).Pairwise fun a b => b.score < a.score
  | _, [] => List.Pairwise.nil
  | r, d :: ds => by
    simp only [withRrfAux]
    rw [List.pairwise_cons]
    refine ⟨?_, withRrfAux_pairwise_score (r + 1) ds⟩
    intro b hb
    obtain ⟨j, _, hs⟩ := mem_withRrfAux_score (r + 1) ds b hb
    rw [hs]
    have h0 : (0 : ℚ) < rrfK + (r : ℚ) + 1 := by
      have : (0 : ℚ) ≤ (r : ℚ) := Nat.cast_nonneg r
      simp only [rrfK]
      linarith
    refine one_div_lt_one_div_of_lt h0 ?_
    have : (0 : ℚ) ≤ (j : ℚ) := Nat.cast_nonneg j
    push_cast
    linarith

theorem withRrf_pairwise_score (L : List Doc) :
    (withRrf L).Pairwise fun a b => b.score < a.score :=
  withRrfAux_pairwise_score 0 L

theorem withRrfAux_score_ge (r : Nat) (L : List Doc) (hlen : r + L.length ≤ searchLimit) :
    ∀ e ∈ withRrfAux r L, 1 / (63 : ℚ) ≤ e.score ∧ 0 < e.score := by
  intro e he
  obtain ⟨j, hj, hs⟩ := mem_withRrfAux_score r L e he
  have hsum : r + j + 1 ≤ 3 := by
    have := Nat.add_le_add_left (Nat.succ_le_of_lt hj) r
    simp only [searchLimit] at hlen
    omega
  have hq : (r : ℚ) + (j : ℚ) + 1 ≤ 3 := by
    have : ((r + j + 1 : Nat) : ℚ) ≤ ((3 : Nat) : ℚ) := Nat.cast_le.mpr hsum
    push_cast at this
    linarith
  have hpos : (0 : ℚ) < rrfK + (r : ℚ) + (j : ℚ) + 1 := by
    have h1 : (0 : ℚ) ≤ (r : ℚ) := Nat.cast_nonneg r
    have h2 : (0 : ℚ) ≤ (j : ℚ) := Nat.cast_nonneg j
    simp only [rrfK]
    linarith
  have hle : rrfK + (r : ℚ) + (j : ℚ) + 1 ≤ 63 := by
    simp only [rrfK]
    linarith
  constructor
  · rw [hs]
    exact one_div_le_one_div_of_le hpos hle
  · rw [hs]
    exact one_div_pos.mpr hpos

/- Properties of the fusion COLLECT. -/

theorem lookupDoc_id (E : List Scored) (i : String) (h : ∃ e ∈ E, e.doc.id = i) :
    (lookupDoc E i).id = i := by
  obtain ⟨e, he, hei⟩ := h
  have hsome : (E.find? (fun e => e.doc.id == i)).isSome := by
    rw [List.find?_isSome]
    exact ⟨e, he, by simp [hei]⟩
  obtain ⟨e2, he2⟩ := Option.isSome_iff_exists.mp hsome
  rw [lookupDoc, he2]
  have := List.find?_some he2
  simpa using this

theorem mem_collectFused (E : List Scored) (f : Scored) :
    f ∈ collectFused E ↔ ∃ i, (∃ e ∈ E, e.doc.id = i) ∧
      f = ⟨lookupDoc E i, sumScores E i⟩ := by
  simp only [collectFused, List.mem_map, mem_collectKeys]
  constructor
  · rintro ⟨i, hi, rfl⟩
    exact ⟨i, hi, rfl⟩
  · rintro ⟨i, hi, rfl⟩
    exact ⟨i, hi, rfl⟩

theorem collectFused_pairwise_id (E : List Scored) :
    (collectFused E).Pairwise fun a b => strLtP a.doc.id b.doc.id := by
  rw [collectFused, List.pairwise_map]
  refine List.Pairwise.imp_of_mem ?_ (collectKeys_pairwise E)
  intro i j hi hj hij
  rwa [lookupDoc_id E i ((mem_collectKeys E i).mp hi),
    lookupDoc_id E j ((mem_collectKeys E j).mp hj)]

theorem sumScores_cons (e : Scored) (E : List Scored) (i : String) :
    sumScores (e :: E) i = (if e.doc.id = i then e.score else 0) + sumScores E i := by
  by_cases h : e.doc.id = i
  · simp [sumScores, List.filter_cons, h]
  · simp [sumScores, List.filter_cons, h]

theorem sumScores_nonneg (E : List Scored) (i : String) (h : ∀ e ∈ E, 0 ≤ e.score) :
    0 ≤ sumScores E i := by
  refine List.sum_nonneg ?_
  intro x hx
  obtain ⟨e, he, rfl⟩ := List.mem_map.mp hx
  exact h e (List.mem_of_mem_filter he)

theorem sumScores_ge (E : List Scored) (i : String) (c : ℚ)
    (hbound : ∀ e ∈ E, c ≤ e.score ∧ 0 < e.score) (hmem : ∃ e ∈ E, e.doc.id = i) :
    c ≤ sumScores E i := by
  induction E with
  | nil =>
    obtain ⟨e, he, _⟩ := hmem
    exact absurd he (List.not_mem_nil e)
  | cons e es ih =>
    rw [sumScores_cons]
    by_cases hei : e.doc.id = i
    · rw [if_pos hei]
      have h1 := (hbound e (List.mem_cons_self e es)).1
      have h2 : 0 ≤ sumScores es i :=
        sumScores_nonneg es i (fun e2 he2 =>
          le_of_lt (hbound e2 (List.mem_cons_of_mem e he2)).2)
      linarith
    · rw [if_neg hei, zero_add]
      refine ih (fun e2 he2 => hbound e2 (List.mem_cons_of_mem e he2)) ?_
      obtain ⟨e2, he2, hid⟩ := hmem
      rcases List.mem_cons.mp he2 with rfl | h
      · exact absurd hid hei
      · exact ⟨e2, h, hid⟩

/- The summed score of the fusion COLLECT equals the spec's RRF formula on
rank lists with no repeated entity id. -/

theorem sumScores_withRrfAux :
    ∀ (L : List Doc) (r : Nat) (i : String), (L.map Doc.id).Nodup →
      sumScores (withRrfAux r L) i = rrfContributionAux (r + 1) L i
  | [], r, i, _ => by simp [withRrfAux, sumScores, rrfContributionAux]
  | d :: ds, r, i, h => by
    rw [List.map_cons, List.nodup_cons] at h
    obtain ⟨hd, hds⟩ := h
    by_cases hdi : d.id = i
    · subst hdi
      have htail : sumScores (withRrfAux (r + 1) ds) d.id = 0 := by
        apply sumScores_eq_zero
        intro e he
        have hedoc : e.doc ∈ ds := by
          have hmap := withRrfAux_map_doc (r + 1) ds
          exact hmap ▸ List.mem_map_of_mem Scored.doc he
        intro hcontra
        exact hd (hcontra ▸ List.mem_map_of_mem Doc.id hedoc)
      simp only [withRrfAux, sumScores_cons, if_pos rfl, htail, add_zero,
        rrfContributionAux, if_pos rfl]
      push_cast
      ring_nf
    · simp only [withRrfAux, sumScores_cons, if_neg hdi, zero_add,
        rrfContributionAux, if_neg hdi]
      exact sumScores_withRrfAux ds (r + 1) i hds

/- Membership facts for the fused direct-hit list. -/

theorem mem_fusedResults (B V : List Doc) (f : Scored) (hf : f ∈ fusedResults B V) :
    f.score = sumScores (withRrf B ++ withRrf V) f.doc.id ∧
      ∃ e ∈ withRrf B ++ withRrf V, e.doc.id = f.doc.id := by
  have h1 : f ∈ collectFused (withRrf B ++ withRrf V) := by
    rw [fusedResults] at hf
    exact (mem_stableSortBy scoreGtB _ f).mp (List.mem_of_mem_take hf)
  obtain ⟨i, hi, rfl⟩ := (mem_collectFused _ f).mp h1
  have hid : (lookupDoc (withRrf B ++ withRrf V) i).id = i := lookupDoc_id _ i hi
  constructor
  · simp [hid]
  · simpa [hid] using hi

theorem fusedResults_score_ge (B V : List Doc) (hB : B.length ≤ searchLimit)
    (hV : V.length ≤ searchLimit) :
    ∀ f ∈ fusedResults B V, 1 / (63 : ℚ) ≤ f.score := by
  intro f hf
  obtain ⟨hscore, hex⟩ := mem_fusedResults B V f hf
  rw [hscore]
  refine sumScores_ge _ _ _ ?_ hex
  intro e2 he2
  rcases List.mem_append.mp he2 with h | h
  · exact withRrfAux_score_ge 0 B (by simpa using hB) e2 h
  · exact withRrfAux_score_ge 0 V (by simpa using hV) e2 h

/- The comparator of `SORT final_score DESC` is transitive and asymmetric,
so the sorted output is weakly descending in score. -/

theorem scoreGtB_trans (a b c : Scored) (h1 : scoreGtB a b = true) (h2 : scoreGtB b c = true) :
    scoreGtB a c = true := by
  simp only [scoreGtB, decide_eq_true_eq] at h1 h2 ⊢
  exact lt_trans h2 h1

theorem scoreGtB_asymm (a b : Scored) (h : scoreGtB a b = true) : scoreGtB b a = false := by
  simp only [scoreGtB, decide_eq_true_eq, decide_eq_false_iff_not] at h ⊢
  exact not_lt.mpr (le_of_lt h)

theorem fusedResults_sorted_score (B V : List Doc) :
    (fusedResults B V).Pairwise fun a b => b.score ≤ a.score := by
  have h := stableSortBy_pairwise_sorted scoreGtB scoreGtB_trans scoreGtB_asymm
    (collectFused (withRrf B ++ withRrf V))
  have h2 : (stableSortBy scoreGtB (collectFused (withRrf B ++ withRrf V))).Pairwise
      fun a b => b.score ≤ a.score := by
    refine h.imp ?_
    intro a b hab
    simp only [scoreGtB, decide_eq_false_iff_not] at hab
    exact not_lt.mp hab
  exact h2.sublist (List.take_sublist _ _)

/- Commutativity pieces: the group keys, and the summed scores, do not
depend on the order of the two rank lists. -/

theorem collectKeys_append_comm (E1 E2 : List Scored) :
    collectKeys (E1 ++ E2) = collectKeys (E2 ++ E1) := by
  refine sorted_strLtP_eq _ _ (collectKeys_pairwise _) (collectKeys_pairwise _) ?_
  intro a
  simp only [mem_collectKeys, List.mem_append]
  constructor
  · rintro ⟨e, h | h, rfl⟩
    · exact ⟨e, Or.inr h, rfl⟩
    · exact ⟨e, Or.inl h, rfl⟩
  · rintro ⟨e, h | h, rfl⟩
    · exact ⟨e, Or.inr h, rfl⟩
    · exact ⟨e, Or.inl h, rfl⟩

/-- The projection of a fused row to its (entity id, fused score) pair. -/
def idScore (f : Scored) : String × ℚ := (f.doc.id, f.score)

/-- The score comparator on projected pairs. -/
def pairGt (p q : String × ℚ) : Bool := decide (q.2 < p.2)

theorem scoreGtB_factors (a b : Scored) : scoreGtB a b = pairGt (idScore a) (idScore b) := rfl

/- On a rank list with no repeated id, the fusion COLLECT is a permutation of
the list itself, and sorting a strictly descending list leaves it unchanged. -/

theorem lookupDoc_of_nodup (E : List Scored) (h : (E.map fun e => e.doc.id).Nodup) :
    ∀ e ∈ E, lookupDoc E e.doc.id = e.doc := by
  induction E with
  | nil => intro e he; exact absurd he (List.not_mem_nil e)
  | cons e2 es ih =>
    rw [List.map_cons, List.nodup_cons] at h
    obtain ⟨hd, hds⟩ := h
    intro e he
    rcases List.mem_cons.mp he with rfl | hes
    · rw [lookupDoc, List.find?_cons_of_pos _ (by simp)]
    · have hne : (e2.doc.id == e.doc.id) = false := by
        simp only [beq_eq_false_iff_ne, ne_eq]
        intro hcontra
        exact hd (hcontra ▸ List.mem_map_of_mem (fun e => e.doc.id) hes)
      rw [lookupDoc, List.find?_cons_of_neg _ (by simp [hne])]
      exact ih hds e hes

theorem sumScores_of_nodup (E : List Scored) (h : (E.map fun e => e.doc.id).Nodup) :
    ∀ e ∈ E, sumScores E e.doc.id = e.score := by
  induction E with
  | nil => intro e he; exact absurd he (List.not_mem_nil e)
  | cons e2 es ih =>
    rw [List.map_cons, List.nodup_cons] at h
    obtain ⟨hd, hds⟩ := h
    intro e he
    rcases List.mem_cons.mp he with rfl | hes
    · rw [sumScores_cons, if_pos rfl, sumScores_eq_zero es e.doc.id ?_, add_zero]
      intro e3 he3 hcontra
      exact hd (hcontra ▸ List.mem_map_of_mem (fun e => e.doc.id) he3)
    · have hne : e2.doc.id ≠ e.doc.id := by
        intro hcontra
        exact hd (hcontra ▸ List.mem_map_of_mem (fun e => e.doc.id) hes)
      rw [sumScores_cons, if_neg hne, zero_add]
      exact ih hds e hes

theorem collectFused_perm_of_nodup (E : List Scored)
    (h : (E.map fun e => e.doc.id).Nodup) : List.Perm (collectFused E) E := by
  have hkeys : List.Perm (collectKeys E) (E.map fun e => e.doc.id) := by
    rw [List.perm_ext_iff_of_nodup (collectKeys_nodup E) h]
    intro j
    simp [mem_collectKeys]
  have hmap : ((E.map fun e => e.doc.id).map
      (fun i => ({ doc := lookupDoc E i, score := sumScores E i } : Scored))) = E := by
    rw [List.map_map]
    have : E.map ((fun i => ({ doc := lookupDoc E i, score := sumScores E i } : Scored)) ∘
        (fun e => e.doc.id)) = E.map id := by
      apply List.map_congr_left
      intro e he
      simp only [Function.comp_apply, id_eq]
      rw [lookupDoc_of_nodup E h e he, sumScores_of_nodup E h e he]
    rw [this, List.map_id]
  have h2 : List.Perm
      ((collectKeys E).map (fun i => ({ doc := lookupDoc E i, score := sumScores E i } : Scored)))
      ((E.map fun e => e.doc.id).map
        (fun i => ({ doc := lookupDoc E i, score := sumScores E i } : Scored))) :=
    hkeys.map _
  rw [hmap] at h2
  exact h2

theorem stableSort_of_strict_perm (l m : List Scored) (hperm : List.Perm l m)
    (hm : m.Pairwise fun a b => b.score < a.score) : stableSortBy scoreGtB l = m := by
  have hp : List.Perm (stableSortBy scoreGtB l) m := (stableSortBy_perm scoreGtB l).trans hperm
  have hs := stableSortBy_pairwise_sorted scoreGtB scoreGtB_trans scoreGtB_asymm l
  have hsle : (stableSortBy scoreGtB l).Pairwise fun a b => b.score ≤ a.score := by
    refine hs.imp ?_
    intro a b hab
    simp only [scoreGtB, decide_eq_false_iff_not] at hab
    exact not_lt.mp hab
  have hnodupm : (m.map fun f => f.score).Nodup :=
    List.pairwise_map.mpr (hm.imp (fun h => ne_of_gt h))
  have hnodupl : ((stableSortBy scoreGtB l).map fun f => f.score).Nodup :=
    ((hp.map (fun f => f.score)).symm).nodup hnodupm
  have hne : (stableSortBy scoreGtB l).Pairwise fun a b => a.score ≠ b.score :=
    List.pairwise_map.mp hnodupl
  have hstrict : (stableSortBy scoreGtB l).Pairwise fun a b => b.score < a.score := by
    refine (hsle.and hne).imp ?_
    intro a b hab
    exact lt_of_le_of_ne hab.1 hab.2.symm
  exact hp.eq_of_sorted (fun a b _ _ h1 h2 => absurd h1 (lt_asymm h2)) hstrict hm

theorem withRrf_ids (V : List Doc) :
    ((withRrf V).map fun e => e.doc.id) = V.map Doc.id := by
  rw [withRrf, show (fun (e : Scored) => e.doc.id) = Doc.id ∘ Scored.doc from rfl,
    ← List.map_map, withRrfAux_map_doc]

theorem fusedResults_of_single (V : List Doc) (hV : (V.map Doc.id).Nodup) :
    fusedResults [] V = (withRrf V).take searchLimit ∧
      fusedResults V [] = (withRrf V).take searchLimit := by
  have hids : ((withRrf V).map fun e => e.doc.id).Nodup := by
    rw [withRrf_ids]
    exact hV
  have hsort : stableSortBy scoreGtB (collectFused (withRrf V)) = withRrf V :=
    stableSort_of_strict_perm _ _ (collectFused_perm_of_nodup _ hids)
      (withRrf_pairwise_score V)
  constructor
  · rw [fusedResults]
    have hnil : withRrf ([] : List Doc) ++ withRrf V = withRrf V := by
      simp [withRrf, withRrfAux]
    rw [hnil, hsort]
  · rw [fusedResults]
    have hnil : withRrf V ++ withRrf ([] : List Doc) = withRrf V := by
      simp [withRrf, withRrfAux]
    rw [hnil, hsort]

/- Field facts of the rows entering the final UNION_DISTINCT and SORT. -/

theorem directItems_fields (fused : List Scored) :
    ∀ x ∈ directItems fused, x.source = "hybrid_search" ∧ x.relationship = none ∧
      x.connected_to = none ∧ x.project = none := by
  intro x hx
  obtain ⟨f, _, rfl⟩ := List.mem_map.mp hx
  exact ⟨rfl, rfl, rfl, rfl⟩

theorem mem_directItems (fused : List Scored) (x : ResultItem) (hx : x ∈ directItems fused) :
    ∃ f ∈ fused, x.score = f.score ∧ x.doc = f.doc := by
  obtain ⟨f, hf, rfl⟩ := List.mem_map.mp hx
  exact ⟨f, hf, rfl, rfl⟩

theorem neighborsOf_mem (store : List Doc) (edges : List Edge) (rid : String)
    (p : Doc × Edge) (hp : p ∈ neighborsOf store edges rid) :
    p.2 ∈ edges ∧ p.1 ∈ store := by
  rw [neighborsOf] at hp
  obtain ⟨e, he, hfe⟩ := List.mem_filterMap.mp hp
  by_cases h1 : e.efrom == rid
  · rw [if_pos h1] at hfe
    obtain ⟨d, hd, hde⟩ := Option.map_eq_some'.mp hfe
    have : p.2 = e := by rw [← hde]
    have hdm : p.1 = d := by rw [← hde]
    refine ⟨this ▸ he, hdm ▸ List.mem_of_find?_eq_some hd⟩
  · rw [if_neg h1] at hfe
    by_cases h2 : e.eto == rid
    · rw [if_pos h2] at hfe
      obtain ⟨d, hd, hde⟩ := Option.map_eq_some'.mp hfe
      have : p.2 = e := by rw [← hde]
      have hdm : p.1 = d := by rw [← hde]
      refine ⟨this ▸ he, hdm ▸ List.mem_of_find?_eq_some hd⟩
    · rw [if_neg h2] at hfe
      exact absurd hfe (by simp)

theorem expansionItems_fields (store : List Doc) (edges : List Edge) (fused : List Scored) :
    ∀ x ∈ expansionItems store edges fused, x.score = expansionScore ∧
      x.source = "graph_expansion" ∧
      (∃ r ∈ fused, x.connected_to = some r.doc.key) ∧
      (∃ e ∈ edges, x.relationship = some e.typ) := by
  intro x hx
  rw [expansionItems, mem_dedupFirst] at hx
  obtain ⟨r, hr, hx2⟩ := List.mem_flatMap.mp hx
  obtain ⟨p, hp, rfl⟩ := List.mem_map.mp hx2
  exact ⟨rfl, rfl, ⟨r, hr, rfl⟩, ⟨p.2, (neighborsOf_mem store edges r.doc.id p hp).1, rfl⟩⟩

theorem expansionItems_nodup (store : List Doc) (edges : List Edge) (fused : List Scored) :
    (expansionItems store edges fused).Nodup :=
  dedupFirst_nodup _

theorem fusedResults_ids_nodup (B V : List Doc) :
    ((fusedResults B V).map fun f => f.doc.id).Nodup := by
  have h1 : ((collectFused (withRrf B ++ withRrf V)).map fun f => f.doc.id).Nodup :=
    List.pairwise_map.mpr ((collectFused_pairwise_id _).imp (fun h => strLtP_ne h))
  have h2 : ((stableSortBy scoreGtB (collectFused (withRrf B ++ withRrf V))).map
      fun f => f.doc.id).Nodup :=
    (((stableSortBy_perm scoreGtB _).map (fun f => f.doc.id)).symm).nodup h1
  rw [fusedResults, List.map_take]
  exact h2.sublist (List.take_sublist _ _)

theorem directItems_nodup (B V : List Doc) : (directItems (fusedResults B V)).Nodup := by
  have hids := fusedResults_ids_nodup B V
  have hpair : (fusedResults B V).Pairwise fun a b => a.doc.id ≠ b.doc.id :=
    List.pairwise_map.mp hids
  rw [directItems]
  refine List.pairwise_map.mpr ?_
  refine hpair.imp ?_
  intro a b hab hcontra
  exact hab (congrArg (fun x => x.doc.id) hcontra)

theorem combined_nodup (store : List Doc) (edges : List Edge) (B V : List Doc) :
    (directItems (fusedResults B V) ++ expansionItems store edges (fusedResults B V)).Nodup := by
  rw [List.nodup_append]
  refine ⟨directItems_nodup B V, expansionItems_nodup store edges _, ?_⟩
  intro x hx hx2
  have h1 := (directItems_fields _ x hx).1
  have h2 := (expansionItems_fields store edges _ x hx2).2.1
  rw [h1] at h2
  exact absurd h2 (by decide)

/- Every direct row strictly outscores every expansion row (with the
reference constants k = 60, limit = 3), sources agree inside each block,
so the final comparator rejects every inversion: the concatenated list is
already in final sort order, under the full comparator and also under the
score-only comparator. -/

theorem finalLt_eq_false_of (a b : ResultItem) (h1 : ¬ a.score < b.score)
    (h2 : b.score = a.score → strLt b.source a.source = false) : finalLt b a = false := by
  rw [finalLt]
  have hd1 : decide (a.score < b.score) = false := decide_eq_false h1
  by_cases heq : b.score = a.score
  · rw [hd1, h2 heq]
    simp
  · have hd2 : decide (b.score = a.score) = false := decide_eq_false heq
    rw [hd1, hd2]
    simp

theorem direct_score_ge (B V : List Doc) (hB : B.length ≤ searchLimit)
    (hV : V.length ≤ searchLimit) :
    ∀ x ∈ directItems (fusedResults B V), 1 / (63 : ℚ) ≤ x.score := by
  intro x hx
  obtain ⟨f, hf, hs, _⟩ := mem_directItems _ x hx
  rw [hs]
  exact fusedResults_score_ge B V hB hV f hf

theorem direct_gt_expansion (store : List Doc) (edges : List Edge) (B V : List Doc)
    (hB : B.length ≤ searchLimit) (hV : V.length ≤ searchLimit) :
    ∀ a ∈ directItems (fusedResults B V),
      ∀ b ∈ expansionItems store edges (fusedResults B V), b.score < a.score := by
  intro a ha b hb
  have hA := direct_score_ge B V hB hV a ha
  have hb1 := (expansionItems_fields store edges _ b hb).1
  rw [hb1]
  have h63 : expansionScore < 1 / (63 : ℚ) := by
    norm_num [expansionScore]
  exact lt_of_lt_of_le h63 hA

theorem combined_pairwise_finalLt (store : List Doc) (edges : List Edge) (B V : List Doc)
    (hB : B.length ≤ searchLimit) (hV : V.length ≤ searchLimit) :
    (directItems (fusedResults B V) ++ expansionItems store edges (fusedResults B V)).Pairwise
      fun a b => finalLt b a = false := by
  rw [List.pairwise_append]
  refine ⟨?_, ?_, ?_⟩
  · have hsorted : (directItems (fusedResults B V)).Pairwise fun a b => b.score ≤ a.score := by
      rw [directItems]
      exact List.pairwise_map.mpr (fusedResults_sorted_score B V)
    refine List.Pairwise.imp_of_mem ?_ hsorted
    intro a b ha hb hab
    refine finalLt_eq_false_of a b (not_lt.mpr hab) ?_
    intro _
    rw [(directItems_fields _ b hb).1, (directItems_fields _ a ha).1]
    exact (strLt_eq_false_iff _ _).mpr (strLtP_irrefl _)
  · refine List.pairwise_of_forall_mem_list ?_
    intro a ha b hb
    have hfa := expansionItems_fields store edges _ a ha
    have hfb := expansionItems_fields store edges _ b hb
    refine finalLt_eq_false_of a b ?_ ?_
    · rw [hfa.1, hfb.1]
      exact lt_irrefl _
    · intro _
      rw [hfb.2.1, hfa.2.1]
      exact (strLt_eq_false_iff _ _).mpr (strLtP_irrefl _)
  · intro a ha b hb
    have hlt := direct_gt_expansion store edges B V hB hV a ha b hb
    refine finalLt_eq_false_of a b (not_lt.mpr (le_of_lt hlt)) ?_
    intro heq
    exact absurd heq (ne_of_lt hlt)

theorem combined_pairwise_scoreOnly (store : List Doc) (edges : List Edge) (B V : List Doc)
    (hB : B.length ≤ searchLimit) (hV : V.length ≤ searchLimit) :
    (directItems (fusedResults B V) ++ expansionItems store edges (fusedResults B V)).Pairwise
      fun a b => scoreOnlyLt b a = false := by
  refine (combined_pairwise_finalLt store edges B V hB hV).imp ?_
  intro a b h
  rw [finalLt] at h
  exact (Bool.or_eq_false_iff.mp h).1

theorem searchResults_eq_append (store : List Doc) (edges : List Edge) (B V : List Doc)
    (hB : B.length ≤ searchLimit) (hV : V.length ≤ searchLimit) :
    searchResults store edges B V =
      directItems (fusedResults B V) ++ expansionItems store edges (fusedResults B V) := by
  rw [searchResults, dedupFirst_of_nodup _ (combined_nodup store edges B V)]
  exact stableSortBy_of_pairwise finalLt _ (combined_pairwise_finalLt store edges B V hB hV)

theorem searchResults_scoreOnly_eq (store : List Doc) (edges : List Edge) (B V : List Doc)
    (hB : B.length ≤ searchLimit) (hV : V.length ≤ searchLimit) :
    stableSortBy scoreOnlyLt
      (dedupFirst (directItems (fusedResults B V) ++ expansionItems store edges (fusedResults B V)))
      = searchResults store edges B V := by
  rw [searchResults, dedupFirst_of_nodup _ (combined_nodup store edges B V),
    stableSortBy_of_pairwise scoreOnlyLt _ (combined_pairwise_scoreOnly store edges B V hB hV),
    stableSortBy_of_pairwise finalLt _ (combined_pairwise_finalLt store edges B V hB hV)]

/- Concrete documents and edges used by the closed instances below. -/

def docA : Doc := ⟨"docs/a", "a", "Alice", "text a", "role a"⟩

def docB : Doc := ⟨"docs/b", "b", "Bob", "text b", "role b"⟩

def docC : Doc := ⟨"docs/c", "c", "Carol", "text c", "role c"⟩

def docX : Doc := ⟨"docs/x", "x", "Xena", "text x", "role x"⟩

def docY : Doc := ⟨"docs/y", "y", "Yuri", "text y", "role y"⟩

def edgeAB : Edge := ⟨"docs/a", "docs/b", "works_with", "p1"⟩

/- The claims. -/

/-- C1: for every pair of rank lists with no repeated entity id, the fused
score of each direct hit equals the sum over the two lists of `1/(k + rank)`
(k = 60, rank the 1-based position; a list not containing the entity
contributes 0), and the fused direct-hit list is ordered by this score,
descending. -/
theorem c1_rrf_fused_scores (B V : List Doc)
    (hB : (B.map Doc.id).Nodup) (hV : (V.map Doc.id).Nodup) :
    (∀ f ∈ fusedResults B V,
        f.score = rrfContribution B f.doc.id + rrfContribution V f.doc.id) ∧
      (fusedResults B V).Pairwise fun a b => b.score ≤ a.score := by
  constructor
  · intro f hf
    obtain ⟨hs, _⟩ := mem_fusedResults B V f hf
    rw [hs, sumScores_append, withRrf, withRrf, sumScores_withRrfAux B 0 _ hB,
      sumScores_withRrfAux V 0 _ hV]
    simp [rrfContribution]
  · exact fusedResults_sorted_score B V

/-- C1 witness: with BM25 list [a, b] and vector list [b, c], the fused entry
for b carries score 1/62 + 1/61 (its two positional contributions), and the
fused list is sorted by score descending. -/
theorem c1_rrf_fused_scores_witness :
    ((⟨docB, 1/62 + 1/61⟩ : Scored).score =
        rrfContribution [docA, docB] (⟨docB, 1/62 + 1/61⟩ : Scored).doc.id +
          rrfContribution [docB, docC] (⟨docB, 1/62 + 1/61⟩ : Scored).doc.id) ∧
      (fusedResults [docA, docB] [docB, docC]).Pairwise fun a b => b.score ≤ a.score :=
  ⟨(c1_rrf_fused_scores [docA, docB] [docB, docC] (by decide) (by decide)).1
      ⟨docB, 1/62 + 1/61⟩
      (by norm_num +decide [fusedResults, collectFused, collectKeys, insertSortedIds,
        withRrf, withRrfAux, sumScores, lookupDoc, stableSortBy, insPlace, scoreGtB,
        rrfK, searchLimit, docA, docB, docC]),
    (c1_rrf_fused_scores [docA, docB] [docB, docC] (by decide) (by decide)).2⟩

/-- C2: evaluation of `search` at the failing input: documents a and b, one
edge a→b, BM25 rank list [a, b], empty vector list.  Entity b is a fused
direct hit and is one-hop reachable from direct hit a (and vice versa), yet
the final output lists both a and b twice — once tagged "hybrid_search" and
once tagged "graph_expansion" — because `UNION_DISTINCT` only removes
structurally identical rows and a direct row differs from an expansion row in
its score, source and expansion attributes.  The claim that such an entity
appears exactly once, tagged as a direct hit, is false of this code. -/
theorem c2_direct_hit_duplicated_as_expansion :
    (searchResults [docA, docB] [edgeAB] [docA, docB] []).map
        (fun r => (r.doc.id, r.source)) =
      [("docs/a", "hybrid_search"), ("docs/b", "hybrid_search"),
        ("docs/b", "graph_expansion"), ("docs/a", "graph_expansion")] := by
  norm_num +decide [searchResults, fusedResults, collectFused, collectKeys, insertSortedIds,
    withRrf, withRrfAux, sumScores, lookupDoc, stableSortBy, insPlace, scoreGtB, rrfK,
    searchLimit, dedupFirst, directItems, expansionItems, neighborsOf, finalLt,
    expansionScore, List.filterMap_cons, docA, docB, edgeAB]

/-- C3: when one strategy returns zero hits, the fused direct-hit list is
exactly the other strategy's RRF-scored rank list (scores `1/(60 + rank)`, in
rank order, truncated to the fused limit), with no phantom entries. -/
theorem c3_empty_strategy_tolerance (V : List Doc) (hV : (V.map Doc.id).Nodup) :
    fusedResults [] V = (withRrf V).take searchLimit ∧
      fusedResults V [] = (withRrf V).take searchLimit :=
  fusedResults_of_single V hV

/-- C3 witness: with an empty lexical list and vector list [x, y], the fused
output is exactly [x, y] with scores 1/61 and 1/62. -/
theorem c3_empty_strategy_tolerance_witness :
    fusedResults [] [docX, docY] = [⟨docX, 1/61⟩, ⟨docY, 1/62⟩] ∧
      fusedResults [docX, docY] [] = [⟨docX, 1/61⟩, ⟨docY, 1/62⟩] := by
  have h := c3_empty_strategy_tolerance [docX, docY] (by decide)
  refine ⟨h.1.trans ?_, h.2.trans ?_⟩ <;>
    norm_num +decide [withRrf, withRrfAux, rrfK, searchLimit, docX, docY]

/-- C4: a query vector whose length differs from the configured dimension
D = 768 makes the vector search fail with `DimensionMismatch`; no ranked
results are returned, and the outcome does not depend on the similarity
metric, i.e. no distance computation influences it. -/
theorem c4_dimension_mismatch_rejected (sim : List ℚ → List ℚ → ℚ) (qv : List ℚ)
    (vstore : List (Doc × List ℚ)) (limit : Nat) (h : qv.length ≠ embeddingDimensions) :
    vectorSearch sim qv vstore limit = Except.error SearchError.dimensionMismatch ∧
      (∀ hits, vectorSearch sim qv vstore limit ≠ Except.ok hits) ∧
      (∀ sim2, vectorSearch sim qv vstore limit = vectorSearch sim2 qv vstore limit) := by
  have he : vectorSearch sim qv vstore limit = Except.error SearchError.dimensionMismatch := by
    rw [vectorSearch, if_neg h]
  refine ⟨he, ?_, ?_⟩
  · intro hits hcontra
    rw [he] at hcontra
    exact Except.noConfusion hcontra
  · intro sim2
    rw [he, vectorSearch, if_neg h]

/-- C4 witness: a 1-dimensional query vector is rejected. -/
theorem c4_dimension_mismatch_rejected_witness :
    vectorSearch (fun _ _ => 0) [0] [] searchLimit =
      Except.error SearchError.dimensionMismatch :=
  (c4_dimension_mismatch_rejected (fun _ _ => 0) [0] [] searchLimit
    (by norm_num [embeddingDimensions])).1

/-- C5: when the embedding provider fails in stage 1, the whole query fails
with `EmbeddingUnavailable` — an outcome distinct from every successful
result list (in particular from an empty one), so the engine never falls
back to returning lexical-only results. -/
theorem c5_embedding_failure_fatal (sim : List ℚ → List ℚ → ℚ) (lexHits : List Doc)
    (vstore : List (Doc × List ℚ)) (store : List Doc) (edges : List Edge) :
    runQuery none sim lexHits vstore store edges =
        QueryOutcome.failed SearchError.embeddingUnavailable ∧
      ∀ items, runQuery none sim lexHits vstore store edges ≠ QueryOutcome.results items := by
  refine ⟨rfl, ?_⟩
  intro items hcontra
  exact QueryOutcome.noConfusion hcontra

/-- C5 witness: a concrete failed-embedding query fails and is not the empty
result list. -/
theorem c5_embedding_failure_fatal_witness :
    runQuery none (fun _ _ => 0) [] [] [] [] =
        QueryOutcome.failed SearchError.embeddingUnavailable ∧
      runQuery none (fun _ _ => 0) [] [] [] [] ≠ QueryOutcome.results [] :=
  ⟨(c5_embedding_failure_fatal (fun _ _ => 0) [] [] [] []).1,
    (c5_embedding_failure_fatal (fun _ _ => 0) [] [] [] []).2 []⟩

/-- C7: the final list is the direct hits (sorted by fusion score descending,
tagged "hybrid_search", without expansion attributes) followed by the
expansion hits, each carrying the fixed score 0.005, tagged
"graph_expansion", and annotated with a traversed edge type and the key of
the connecting direct hit. -/
theorem c7_assembly_order (store : List Doc) (edges : List Edge) (B V : List Doc)
    (hB : B.length ≤ searchLimit) (hV : V.length ≤ searchLimit) :
    searchResults store edges B V =
        directItems (fusedResults B V) ++ expansionItems store edges (fusedResults B V) ∧
      (directItems (fusedResults B V)).Pairwise (fun a b => b.score ≤ a.score) ∧
      (∀ x ∈ directItems (fusedResults B V), x.source = "hybrid_search" ∧
        x.relationship = none ∧ x.connected_to = none) ∧
      (∀ x ∈ expansionItems store edges (fusedResults B V), x.score = expansionScore ∧
        x.source = "graph_expansion" ∧
        (∃ r ∈ fusedResults B V, x.connected_to = some r.doc.key) ∧
        ∃ e ∈ edges, x.relationship = some e.typ) := by
  refine ⟨searchResults_eq_append store edges B V hB hV, ?_, ?_,
    expansionItems_fields store edges _⟩
  · rw [directItems]
    exact List.pairwise_map.mpr (fusedResults_sorted_score B V)
  · intro x hx
    obtain ⟨h1, h2, h3, _⟩ := directItems_fields _ x hx
    exact ⟨h1, h2, h3⟩

/-- C7 witness: the assembled output at a concrete input is the direct block
followed by the expansion block. -/
theorem c7_assembly_order_witness :
    searchResults [docA, docB] [edgeAB] [docA, docB] [] =
      directItems (fusedResults [docA, docB] []) ++
        expansionItems [docA, docB] [edgeAB] (fusedResults [docA, docB] []) :=
  (c7_assembly_order [docA, docB] [edgeAB] [docA, docB] [] (by decide) (by decide)).1

/-- C8: rank fusion is commutative in its two rank lists: swapping them
yields the same entity ids, the same per-entity fused scores, and the same
output order. -/
theorem c8_fusion_commutative (B V : List Doc) :
    (fusedResults B V).map idScore = (fusedResults V B).map idScore := by
  have hkeys := collectKeys_append_comm (withRrf B) (withRrf V)
  have hmap : (collectFused (withRrf B ++ withRrf V)).map idScore =
      (collectFused (withRrf V ++ withRrf B)).map idScore := by
    rw [collectFused, collectFused, hkeys, List.map_map, List.map_map]
    apply List.map_congr_left
    intro i hi
    have hmem : ∃ e ∈ withRrf V ++ withRrf B, e.doc.id = i := (mem_collectKeys _ i).mp hi
    have hmem2 : ∃ e ∈ withRrf B ++ withRrf V, e.doc.id = i := by
      obtain ⟨e, he, rfl⟩ := hmem
      rcases List.mem_append.mp he with h | h
      · exact ⟨e, List.mem_append.mpr (Or.inr h), rfl⟩
      · exact ⟨e, List.mem_append.mpr (Or.inl h), rfl⟩
    simp only [Function.comp_apply, idScore]
    rw [lookupDoc_id _ i hmem2, lookupDoc_id _ i hmem, sumScores_append, sumScores_append,
      add_comm]
  rw [fusedResults, fusedResults, List.map_take, List.map_take,
    map_stableSortBy scoreGtB idScore pairGt scoreGtB_factors,
    map_stableSortBy scoreGtB idScore pairGt scoreGtB_factors, hmap]

/-- C9: with k = 60 and per-strategy limit 3, every fused direct hit scores at
least 1/63, the fixed expansion score 0.005 is strictly below 1/63, and
sorting the combined rows by score alone yields exactly the final output —
the provenance field is not needed as a sort key. -/
theorem c9_score_separation (store : List Doc) (edges : List Edge) (B V : List Doc)
    (hB : B.length ≤ searchLimit) (hV : V.length ≤ searchLimit) :
    (∀ f ∈ fusedResults B V, 1 / (63 : ℚ) ≤ f.score) ∧
      expansionScore < 1 / (63 : ℚ) ∧
      stableSortBy scoreOnlyLt
        (dedupFirst (directItems (fusedResults B V) ++
          expansionItems store edges (fusedResults B V))) = searchResults store edges B V :=
  ⟨fusedResults_score_ge B V hB hV, by norm_num [expansionScore],
    searchResults_scoreOnly_eq store edges B V hB hV⟩

/-- C9 witness: at a concrete input, the score-only sort of the combined rows
is the final output. -/
theorem c9_score_separation_witness :
    stableSortBy scoreOnlyLt
      (dedupFirst (directItems (fusedResults [docA, docB] []) ++
        expansionItems [docA, docB] [edgeAB] (fusedResults [docA, docB] []))) =
      searchResults [docA, docB] [edgeAB] [docA, docB] [] :=
  (c9_score_separation [docA, docB] [edgeAB] [docA, docB] [] (by decide) (by decide)).2.2

/-- C10: the arguments "reset" and "--reset" always dispatch to the database
drop, a missing or empty argument dispatches to the usage message, and a
search is only ever dispatched for a query different from "reset", "--reset"
and the empty string. -/
theorem c10_cli_dispatch :
    mainDispatch (some "reset") = MainAction.resetDb ∧
      mainDispatch (some "--reset") = MainAction.resetDb ∧
      mainDispatch none = MainAction.usage ∧
      mainDispatch (some "") = MainAction.usage ∧
      ∀ (a : Option String) (q : String), mainDispatch a = MainAction.runSearch q →
        q ≠ "reset" ∧ q ≠ "--reset" ∧ q ≠ "" := by
  refine ⟨?_, ?_, rfl, ?_, ?_⟩
  · rw [mainDispatch, if_pos (Or.inl rfl)]
  · rw [mainDispatch, if_pos (Or.inr rfl)]
  · rw [mainDispatch, if_neg ?_, if_pos rfl]
    push_neg
    exact ⟨by decide, by decide⟩
  · intro a q h
    match a with
    | none =>
      rw [mainDispatch] at h
      exact absurd h (fun hc => MainAction.noConfusion hc)
    | some c =>
      rw [mainDispatch] at h
      by_cases h1 : c = "reset" ∨ c = "--reset"
      · rw [if_pos h1] at h
        exact absurd h (fun hc => MainAction.noConfusion hc)
      · rw [if_neg h1] at h
        by_cases h2 : c = ""
        · rw [if_pos h2] at h
          exact absurd h (fun hc => MainAction.noConfusion hc)
        · rw [if_neg h2] at h
          have hq : c = q := by
            injection h
          subst hq
          exact ⟨(not_or.mp h1).1, (not_or.mp h1).2, h2⟩

/-- C10 witness: the query "hello" is dispatched to a search and is none of
the reserved texts. -/
theorem c10_cli_dispatch_witness :
    ("hello" : String) ≠ "reset" ∧ ("hello" : String) ≠ "--reset" ∧ ("hello" : String) ≠ "" :=
  c10_cli_dispatch.2.2.2.2 (some "hello") "hello" rfl

end HybridRag
